import Mathlib

/-!
Verification of the onchain-loader retrieval engine.

The JavaScript source is shallowly embedded in Lean:

* the retry primitive `_fetchChunkData` / `fetchWithRetry` becomes
  `fetchWithRetry`, driven by an oracle `Nat → Option (List Nat)` giving
  the outcome of each remote-read attempt;
* the tree scan `collectLeafAddresses` / `_collectLeaves` becomes
  `traverseNode`, driven by a node-read function
  `Addr → Except ε (List Nat)` (the outcome of a node read after its own
  retry budget);
* the phased scheduler `loadChunksSequentially` / `retryFailedChunks`
  becomes `loadChunksSequentially` / `retryFailedChunks`, driven by an
  oracle `Nat → α → Nat → Option (List Nat)` giving the outcome of
  fetching an address in a given round with a given retry budget;
* the overlapped scheduler `loadWorker` plus the completion-polling loop
  of `fetchTree` become `workerStep` / `waitLoopGo`;
* the assembler `_assembleChunks` becomes `assembleChunks`;
* the encoding detector `_decodeContent` becomes `decodeContent` with an
  executable marker search, a concrete UTF-8 decoder and an EUC-KR
  decoder parametrised by its (external) double-byte mapping table.

All recursion is structural so the definitions evaluate inside `decide`
and `rfl`.
-/

namespace OnchainLoader

/-! ### Retry primitive: `_fetchChunkData` (dist/onchain_loader.js 383-398) and
`fetchWithRetry` (part_001 499-510) -/

/-- Outcome of one call of the retry primitive.  `success` is the value
returned from inside the loop, `failure` is the error thrown on the last
attempt (it is the error of reading the given address), and `undef` is the
JavaScript `undefined` produced when the `for` loop body never runs. -/
inductive FetchResult (α : Type u) : Type u where
  | success (bytes : List Nat)
  | failure (address : α)
  | undef
deriving DecidableEq, Repr

/-- Full observable outcome of the retry primitive: the returned value,
the total backoff time waited, and the number of attempts performed. -/
structure FetchOut (α : Type u) : Type u where
  result : FetchResult α
  waited : Nat
  attempts : Nat
deriving DecidableEq, Repr

/-- Loop body of `_fetchChunkData` / `fetchWithRetry`.  `oracle i` is the
outcome of attempt `i` (0-indexed): `some bytes` if the remote read
succeeds, `none` if it throws.  `rem + 1` is the number of loop
iterations still allowed (so `rem = 0` means `i = retries - 1`,
the iteration whose failure is rethrown).  On failure of attempt `i`
with retries left, the loop sleeps `min (baseDelay * 2 ^ i + jitter i)
maxDelay` before attempt `i + 1`.  In `_fetchChunkData` the parameters
are `baseDelay = 200`, `maxDelay = 2000`, `jitter = 0`; in
`fetchWithRetry` they are `baseDelay = 1000`, `maxDelay = 10000` and
`jitter i` models `Math.random() * 500`. -/
def fetchGo (oracle : Nat → Option (List Nat)) (address : α)
    (baseDelay maxDelay : Nat) (jitter : Nat → Nat) :
    Nat → Nat → Nat → FetchOut α
  | 0, i, waited => ⟨.undef, waited, i⟩
  | rem + 1, i, waited =>
    match oracle i with
    | some bytes => ⟨.success bytes, waited, i + 1⟩
    | none =>
      if rem = 0 then ⟨.failure address, waited, i + 1⟩
      else fetchGo oracle address baseDelay maxDelay jitter rem (i + 1)
        (waited + min (baseDelay * 2 ^ i + jitter i) maxDelay)

/-- Model of `fetchWithRetry(fn, retries, baseDelay)` (part_001 499-510)
and of `_fetchChunkData(client, address, hexToBytes, retries)`
(dist/onchain_loader.js 383-398): run attempts `0 .. retries - 1`,
returning on the first success, rethrowing the failure of attempt
`retries - 1`, and falling off the loop (JavaScript `undefined`) when
`retries = 0`. -/
def fetchWithRetry (oracle : Nat → Option (List Nat)) (address : α)
    (retries baseDelay maxDelay : Nat) (jitter : Nat → Nat) : FetchOut α :=
  fetchGo oracle address baseDelay maxDelay jitter retries 0 0

/-- Model of `_fetchChunkData` with its fixed backoff parameters:
`delay = 200 * 2 ^ i` capped at `2000`, no jitter. -/
def fetchChunkData (oracle : Nat → Option (List Nat)) (address : α)
    (retries : Nat) : FetchOut α :=
  fetchWithRetry oracle address retries 200 2000 (fun _ => 0)

/-- Specification-side formula: the sum of the first `k` backoff delays,
where the delay after attempt `i` is `min (baseDelay * 2 ^ i + jitter i)
maxDelay`. -/
def specBackoffSum (baseDelay maxDelay : Nat) (jitter : Nat → Nat) (k : Nat) : Nat :=
  ∑ i ∈ Finset.range k, min (baseDelay * 2 ^ i + jitter i) maxDelay

section RetryLemmas

variable {α : Type u} (oracle : Nat → Option (List Nat)) (address : α)
  (baseDelay maxDelay : Nat) (jitter : Nat → Nat)

lemma fetchGo_succ_none (rem i waited : Nat) (hi : oracle i = none) :
    fetchGo oracle address baseDelay maxDelay jitter (rem + 1) i waited =
      if rem = 0 then ⟨.failure address, waited, i + 1⟩
      else fetchGo oracle address baseDelay maxDelay jitter rem (i + 1)
        (waited + min (baseDelay * 2 ^ i + jitter i) maxDelay) := by
  rw [show fetchGo oracle address baseDelay maxDelay jitter (rem + 1) i waited =
    match oracle i with
    | some bytes => ⟨.success bytes, waited, i + 1⟩
    | none =>
      if rem = 0 then ⟨.failure address, waited, i + 1⟩
      else fetchGo oracle address baseDelay maxDelay jitter rem (i + 1)
        (waited + min (baseDelay * 2 ^ i + jitter i) maxDelay) from rfl, hi]

lemma fetchGo_succ_some (rem i waited : Nat) (b : List Nat) (hi : oracle i = some b) :
    fetchGo oracle address baseDelay maxDelay jitter (rem + 1) i waited =
      ⟨.success b, waited, i + 1⟩ := by
  rw [show fetchGo oracle address baseDelay maxDelay jitter (rem + 1) i waited =
    match oracle i with
    | some bytes => ⟨.success bytes, waited, i + 1⟩
    | none =>
      if rem = 0 then ⟨.failure address, waited, i + 1⟩
      else fetchGo oracle address baseDelay maxDelay jitter rem (i + 1)
        (waited + min (baseDelay * 2 ^ i + jitter i) maxDelay) from rfl, hi]

lemma fetchGo_success (b : List Nat) :
    ∀ rem i waited k, (∀ j, i ≤ j → j < k → oracle j = none) →
      oracle k = some b → i ≤ k → k < i + rem →
      fetchGo oracle address baseDelay maxDelay jitter rem i waited =
        ⟨.success b,
         waited + ∑ j ∈ Finset.Ico i k, min (baseDelay * 2 ^ j + jitter j) maxDelay,
         k + 1⟩ := by
  intro rem
  induction rem with
  | zero => intro i waited k _ _ hik hlt; omega
  | succ rem ih =>
    intro i waited k hfail hk hik hlt
    by_cases hei : i = k
    · subst hei
      rw [fetchGo_succ_some oracle address baseDelay maxDelay jitter rem i waited b hk]
      simp
    · have hik' : i < k := lt_of_le_of_ne hik hei
      have hi : oracle i = none := hfail i le_rfl hik'
      have hrem : rem ≠ 0 := by omega
      have hsum : ∑ j ∈ Finset.Ico i k, min (baseDelay * 2 ^ j + jitter j) maxDelay
          = min (baseDelay * 2 ^ i + jitter i) maxDelay
            + ∑ j ∈ Finset.Ico (i + 1) k, min (baseDelay * 2 ^ j + jitter j) maxDelay :=
        Finset.sum_eq_sum_Ico_succ_bot hik' _
      rw [fetchGo_succ_none oracle address baseDelay maxDelay jitter rem i waited hi,
        if_neg hrem,
        ih (i + 1) _ k (fun j hj hjk => hfail j (by omega) hjk) hk (by omega) (by omega),
        hsum, Nat.add_assoc]

lemma fetchGo_allFail :
    ∀ rem i waited, (∀ j, i ≤ j → j ≤ i + rem → oracle j = none) →
      fetchGo oracle address baseDelay maxDelay jitter (rem + 1) i waited =
        ⟨.failure address,
         waited + ∑ j ∈ Finset.Ico i (i + rem), min (baseDelay * 2 ^ j + jitter j) maxDelay,
         i + rem + 1⟩ := by
  intro rem
  induction rem with
  | zero =>
    intro i waited hfail
    rw [fetchGo_succ_none oracle address baseDelay maxDelay jitter 0 i waited
      (hfail i le_rfl (by omega)), if_pos rfl]
    simp
  | succ rem ih =>
    intro i waited hfail
    have hi : oracle i = none := hfail i le_rfl (by omega)
    have hsum : ∑ j ∈ Finset.Ico i (i + (rem + 1)), min (baseDelay * 2 ^ j + jitter j) maxDelay
        = min (baseDelay * 2 ^ i + jitter i) maxDelay
          + ∑ j ∈ Finset.Ico (i + 1) (i + 1 + rem), min (baseDelay * 2 ^ j + jitter j) maxDelay := by
      rw [Finset.sum_eq_sum_Ico_succ_bot (by omega), show i + (rem + 1) = i + 1 + rem by omega]
    rw [fetchGo_succ_none oracle address baseDelay maxDelay jitter (rem + 1) i waited hi,
      if_neg (Nat.succ_ne_zero rem),
      ih (i + 1) _ (fun j hj hjk => hfail j (by omega) (by omega)),
      hsum, Nat.add_assoc]
    refine congrArg₂ _ rfl (by omega)

lemma fetchGo_attempts_le :
    ∀ rem i waited,
      (fetchGo oracle address baseDelay maxDelay jitter rem i waited).attempts ≤ i + rem := by
  intro rem
  induction rem with
  | zero => intro i waited; simp [fetchGo]
  | succ rem ih =>
    intro i waited
    simp only [fetchGo]
    match h : oracle i with
    | some b => simp
    | none =>
      by_cases h0 : rem = 0
      · simp [h0]
      · simpa [h0] using
          Nat.le_trans (ih (i + 1) _) (by omega)

end RetryLemmas

/-- Claim C3: the retry primitive performs at most `maxAttempts` attempts;
if the underlying read fails on attempts `0 .. k - 1` and succeeds on
attempt `k < maxAttempts`, it returns the bytes after waiting exactly
(hence at least) the sum of the first `k` backoff delays, where the delay
before attempt `i + 1` is `min (baseDelay * 2 ^ i + jitter i) maxDelay`
and attempt 0 has no preceding delay; if all `maxAttempts` attempts fail
it raises the fetch failure naming the address after attempt
`maxAttempts`, never making attempt `maxAttempts + 1`. -/
theorem retry_bounded_backoff_spec {α : Type u}
    (oracle : Nat → Option (List Nat)) (address : α)
    (retries baseDelay maxDelay : Nat) (jitter : Nat → Nat) :
    (∀ k b, (∀ j < k, oracle j = none) → oracle k = some b → k < retries →
      fetchWithRetry oracle address retries baseDelay maxDelay jitter =
        ⟨.success b, specBackoffSum baseDelay maxDelay jitter k, k + 1⟩) ∧
    ((∀ j < retries, oracle j = none) → 1 ≤ retries →
      fetchWithRetry oracle address retries baseDelay maxDelay jitter =
        ⟨.failure address, specBackoffSum baseDelay maxDelay jitter (retries - 1), retries⟩) ∧
    (fetchWithRetry oracle address retries baseDelay maxDelay jitter).attempts ≤ retries := by
  refine ⟨?_, ?_, ?_⟩
  · intro k b hfail hk hklt
    have := fetchGo_success oracle address baseDelay maxDelay jitter b retries 0 0 k
      (fun j _ hj => hfail j hj) hk (Nat.zero_le k) (by omega)
    rw [fetchWithRetry, this, specBackoffSum, Finset.range_eq_Ico]
    simp
  · intro hfail hr
    obtain ⟨rem, hrem⟩ : ∃ rem, retries = rem + 1 := ⟨retries - 1, by omega⟩
    subst hrem
    have := fetchGo_allFail oracle address baseDelay maxDelay jitter rem 0 0
      (fun j _ hj => hfail j (by omega))
    rw [fetchWithRetry, this, specBackoffSum, Finset.range_eq_Ico]
    simp
  · simpa using fetchGo_attempts_le oracle address baseDelay maxDelay jitter retries 0 0

/-- Witness for C3: with an oracle failing on attempts 0 and 1 and
succeeding on attempt 2, `_fetchChunkData` with budget 3 returns the
bytes after waiting `min 200 2000 + min 400 2000 = 600`, in 3 attempts;
with an always-failing oracle it fails after exactly 3 attempts. -/
theorem retry_bounded_backoff_spec_witness :
    fetchChunkData (fun i => if i < 2 then none else some [7]) (0 : Nat) 3 =
      ⟨.success [7], 600, 3⟩ ∧
    fetchChunkData (fun _ => none) (0 : Nat) 3 =
      ⟨.failure 0, 600, 3⟩ := by
  constructor
  · have h := (retry_bounded_backoff_spec
      (fun i => if i < 2 then none else some [7]) (0 : Nat) 3 200 2000 (fun _ => 0)).1
      2 [7] (by decide) (by decide) (by decide)
    rw [fetchChunkData, h]
    decide
  · have h := ((retry_bounded_backoff_spec
      (fun _ => none) (0 : Nat) 3 200 2000 (fun _ => 0)).2).1
      (by simp) (by decide)
    rw [fetchChunkData, h]
    decide

/-- Claim C9: with a zero attempt budget the attempt loop of the retry
primitive never executes and the call returns JavaScript `undefined`
(neither bytes nor an error), with no attempts made and no time waited. -/
theorem retry_zero_budget_returns_undefined {α : Type u}
    (oracle : Nat → Option (List Nat)) (address : α)
    (baseDelay maxDelay : Nat) (jitter : Nat → Nat) :
    fetchWithRetry oracle address 0 baseDelay maxDelay jitter =
      ⟨.undef, 0, 0⟩ := rfl

/-! ### Tree scanner: `collectLeafAddresses` / `traverseNode` (part_001
178-209) and `_collectLeaves` (dist/onchain_loader.js 310-333) -/

/-- Node addresses.  The JavaScript code represents a child address as
`toHex(data.slice(i, i + 20))`; since the hex rendering is injective we
model the address by the byte slice itself. -/
abbrev Addr := List Nat

/-- Byte-slicing loop of the scan (`for (let i = 0; i < data.length;
i += 20) childAddrs.push(toHex(data.slice(i, i + 20)))`).  The fuel is
the remaining length bound; `splitAddrs` calls it with fuel
`data.length`, which is always sufficient, so the `fuel = 0` fallback is
unreachable. -/
def splitAddrsGo : Nat → List Nat → List Addr
  | _, [] => []
  | 0, _ => []
  | fuel + 1, data => data.take 20 :: splitAddrsGo fuel (data.drop 20)

/-- Parse an internal node payload as a concatenation of 20-byte child
addresses; a final shorter slice is kept as-is, exactly as
`data.slice(i, i + 20)` clamps at the end of the buffer. -/
def splitAddrs (data : List Nat) : List Addr :=
  splitAddrsGo data.length data

/-- Sequencing of the recursive `traverseNode` calls over the child
array (`for (const childAddr of childAddrs) await traverseNode(childAddr,
nodeDepth - 1)`), threading the `currentIndex` counter and propagating a
thrown error. -/
def traverseChildren (f : Addr → Nat → Except ε (List (Nat × Addr) × Nat)) :
    List Addr → Nat → Except ε (List (Nat × Addr) × Nat)
  | [], ctr => .ok ([], ctr)
  | c :: cs, ctr =>
    match f c ctr with
    | .error e => .error e
    | .ok (l, ctr') =>
      match traverseChildren f cs ctr' with
      | .error e => .error e
      | .ok (l', ctr'') => .ok (l ++ l', ctr'')

/-- Model of `traverseNode(address, nodeDepth)` from
`collectLeafAddresses` (part_001 178-209).  `read a` is the outcome of
`fetchChunkData(a, 3)` on node `a` (bytes, or the error left after the
node's retry budget).  At depth 0 the address is recorded as leaf number
`ctr` (`leaves.push({ index: currentIndex++, address })`) and the node
is not read; at depth `d + 1` the payload is read, split into child
addresses and the children are traversed left to right.  A read error
is rethrown, aborting the whole traversal.  The same logic, with
positional instead of stored indices, is `_collectLeaves`
(dist/onchain_loader.js 310-333). -/
def traverseNode (read : Addr → Except ε (List Nat)) :
    Nat → Addr → Nat → Except ε (List (Nat × Addr) × Nat)
  | 0 => fun address ctr => .ok ([(ctr, address)], ctr + 1)
  | d + 1 => fun address ctr =>
    match read address with
    | .error e => .error e
    | .ok data => traverseChildren (traverseNode read d) (splitAddrs data) ctr

/-- Model of `collectLeafAddresses(rootChunk, depth)` (part_001
178-209): run the traversal from the root with the leaf counter starting
at 0 and return the indexed leaf list. -/
def collectLeafAddresses (read : Addr → Except ε (List Nat))
    (rootChunk : Addr) (depth : Nat) : Except ε (List (Nat × Addr)) :=
  match traverseNode read depth rootChunk 0 with
  | .error e => .error e
  | .ok (leaves, _) => .ok leaves

/-- Children of a node as the scan sees them: the 20-byte slices of the
node's payload (empty if the read fails; only relevant on nodes whose
read succeeds). -/
def specChildren (read : Addr → Except ε (List Nat)) (a : Addr) : List Addr :=
  match read a with
  | .ok data => splitAddrs data
  | .error _ => []

/-- Specification-side reference list: the leaves of the tree in
depth-first, left-to-right discovery order ("at depth 0 the address
itself names a leaf; at depth > 0 recurse into each child in array
order"). -/
def specDfsLeaves (children : Addr → List Addr) : Nat → Addr → List Addr
  | 0 => fun a => [a]
  | d + 1 => fun a => ((children a).map (specDfsLeaves children d)).flatten

section EnumFromLemmas

variable {α : Type u}

lemma enumFrom_append_eq (xs ys : List α) :
    ∀ n, List.enumFrom n (xs ++ ys) =
      List.enumFrom n xs ++ List.enumFrom (n + xs.length) ys := by
  induction xs with
  | nil => intro n; simp
  | cons x xs ih =>
    intro n
    simp only [List.cons_append, List.enumFrom, List.length_cons, List.append_eq]
    rw [ih (n + 1), show n + (xs.length + 1) = n + 1 + xs.length from by omega]

lemma map_fst_enumFrom_eq (l : List α) :
    ∀ n, (List.enumFrom n l).map Prod.fst = List.range' n l.length := by
  induction l with
  | nil => intro n; simp
  | cons x xs ih => intro n; simp [List.enumFrom, List.range'_succ, ih]

lemma map_snd_enumFrom_eq (l : List α) :
    ∀ n, (List.enumFrom n l).map Prod.snd = l := by
  induction l with
  | nil => intro n; simp
  | cons x xs ih => intro n; simp [List.enumFrom, ih]

end EnumFromLemmas

section ScanLemmas

variable {ε : Type v}

lemma traverseChildren_ok_eq
    (f : Addr → Nat → Except ε (List (Nat × Addr) × Nat)) (specF : Addr → List Addr)
    (hf : ∀ a ctr res, f a ctr = .ok res →
      res = (List.enumFrom ctr (specF a), ctr + (specF a).length)) :
    ∀ cs ctr res, traverseChildren f cs ctr = .ok res →
      res = (List.enumFrom ctr ((cs.map specF).flatten),
             ctr + ((cs.map specF).flatten).length) := by
  intro cs
  induction cs with
  | nil =>
    intro ctr res h
    simp only [traverseChildren] at h
    cases h
    simp
  | cons c cs ih =>
    intro ctr res h
    simp only [traverseChildren] at h
    split at h
    · cases h
    · rename_i l ctr' hc
      split at h
      · cases h
      · rename_i l' ctr'' hcs
        cases h
        injection hf c ctr (l, ctr') hc with hl hctr
        injection ih ctr' (l', ctr'') hcs with hl' hctr'
        subst hl hctr hl' hctr'
        simp only [List.map_cons, List.flatten_cons, Prod.mk.injEq]
        rw [enumFrom_append_eq]
        refine ⟨rfl, ?_⟩
        simp only [List.length_append]
        omega

lemma traverseNode_ok_eq (read : Addr → Except ε (List Nat)) :
    ∀ d a ctr res, traverseNode read d a ctr = .ok res →
      res = (List.enumFrom ctr (specDfsLeaves (specChildren read) d a),
             ctr + (specDfsLeaves (specChildren read) d a).length) := by
  intro d
  induction d with
  | zero =>
    intro a ctr res h
    simp only [traverseNode] at h
    cases h
    simp [specDfsLeaves, List.enumFrom]
  | succ d ih =>
    intro a ctr res h
    simp only [traverseNode] at h
    cases hread : read a with
    | error e => rw [hread] at h; cases h
    | ok data =>
      rw [hread] at h
      have := traverseChildren_ok_eq (traverseNode read d)
        (specDfsLeaves (specChildren read) d) ih (splitAddrs data) ctr res h
      rw [this]
      simp [specDfsLeaves, specChildren, hread]

end ScanLemmas

/-- Claim C1: whenever the scan completes, it returns one entry per leaf
discovered: the entries' addresses are exactly the leaves of the tree in
depth-first, left-to-right discovery order (for any shape of tree, i.e.
for any distribution of leaves across subtrees), and their assigned
indices form the contiguous range `0 .. L - 1` in that order, where `L`
is the number of leaves. -/
theorem scan_indices_contiguous {ε : Type v} (read : Addr → Except ε (List Nat))
    (rootChunk : Addr) (depth : Nat) (leaves : List (Nat × Addr))
    (h : collectLeafAddresses read rootChunk depth = .ok leaves) :
    leaves.map Prod.fst = List.range leaves.length ∧
    leaves.map Prod.snd = specDfsLeaves (specChildren read) depth rootChunk ∧
    leaves.length = (specDfsLeaves (specChildren read) depth rootChunk).length := by
  rw [collectLeafAddresses] at h
  split at h
  · cases h
  · rename_i l n htrav
    cases h
    injection traverseNode_ok_eq read depth rootChunk 0 _ htrav with hl hn
    subst hl
    refine ⟨?_, map_snd_enumFrom_eq _ 0, by simp⟩
    rw [map_fst_enumFrom_eq, List.range_eq_range']
    simp

/-- Concrete 20-byte addresses used by the demonstration stores. -/
def demoAddr (k : Nat) : Addr := List.replicate 19 0 ++ [k]

/-- Demonstration store for the scan: a depth-2 tree whose root has two
children, the first with two leaf children and the second with one, so
the three leaves are distributed unevenly across the subtrees. -/
def demoReadScan : Addr → Except String (List Nat) := fun a =>
  if a = demoAddr 9 then .ok (demoAddr 5 ++ demoAddr 6)
  else if a = demoAddr 5 then .ok (demoAddr 1 ++ demoAddr 2)
  else if a = demoAddr 6 then .ok (demoAddr 3)
  else .ok []

/-- Witness for C1: on the concrete depth-2 store the scan returns three
entries whose indices are `[0, 1, 2]` and whose addresses are the leaves
in discovery order. -/
theorem scan_indices_contiguous_witness :
    collectLeafAddresses demoReadScan (demoAddr 9) 2 =
      .ok [(0, demoAddr 1), (1, demoAddr 2), (2, demoAddr 3)] ∧
    [(0, demoAddr 1), (1, demoAddr 2), (2, demoAddr 3)].map Prod.fst =
      List.range 3 ∧
    [(0, demoAddr 1), (1, demoAddr 2), (2, demoAddr 3)].map Prod.snd =
      specDfsLeaves (specChildren demoReadScan) 2 (demoAddr 9) := by
  have h : collectLeafAddresses demoReadScan (demoAddr 9) 2 =
      .ok [(0, demoAddr 1), (1, demoAddr 2), (2, demoAddr 3)] := by rfl
  have hmain := scan_indices_contiguous demoReadScan (demoAddr 9) 2
    [(0, demoAddr 1), (1, demoAddr 2), (2, demoAddr 3)] h
  exact ⟨h, hmain.1, hmain.2.1⟩

/-! ### Scan abort on node read failure (claim C7) and malformed
internal nodes (claim C6) -/

/-- Conjunction of scan-readability over a child list. -/
def scanOkChildren (g : Addr → Bool) : List Addr → Bool
  | [] => true
  | c :: cs => g c && scanOkChildren g cs

/-- Specification-side readability predicate: every internal node on the
depth-first traversal of the tree is readable (its `read` succeeds).
Leaves (depth 0) are not read by the scan. -/
def scanOkB (read : Addr → Except ε (List Nat)) : Nat → Addr → Bool
  | 0 => fun _ => true
  | d + 1 => fun a =>
    match read a with
    | .error _ => false
    | .ok data => scanOkChildren (scanOkB read d) (splitAddrs data)

lemma traverseChildren_isOk
    (f : Addr → Nat → Except ε (List (Nat × Addr) × Nat)) (g : Addr → Bool)
    (hf : ∀ a ctr, (f a ctr).isOk = g a) :
    ∀ cs ctr, (traverseChildren f cs ctr).isOk = scanOkChildren g cs := by
  intro cs
  induction cs with
  | nil => intro ctr; rfl
  | cons c cs ih =>
    intro ctr
    simp only [traverseChildren, scanOkChildren]
    cases hc : f c ctr with
    | error e =>
      have hg : g c = false := by
        have := hf c ctr
        rw [hc] at this
        simpa [Except.isOk, Except.toBool] using this.symm
      simp [hc, hg, Except.isOk, Except.toBool]
    | ok p =>
      obtain ⟨l, ctr'⟩ := p
      have hg : g c = true := by
        have := hf c ctr
        rw [hc] at this
        simpa [Except.isOk, Except.toBool] using this.symm
      rw [hg, Bool.true_and]
      cases hcs : traverseChildren f cs ctr' with
      | error e =>
        have := ih ctr'
        rw [hcs] at this
        simp only [hc, hcs, Except.isOk, Except.toBool] at this ⊢
        exact this
      | ok q =>
        obtain ⟨l', ctr''⟩ := q
        have := ih ctr'
        rw [hcs] at this
        simp only [hc, hcs, Except.isOk, Except.toBool] at this ⊢
        exact this

lemma traverseNode_isOk (read : Addr → Except ε (List Nat)) :
    ∀ d a ctr, (traverseNode read d a ctr).isOk = scanOkB read d a := by
  intro d
  induction d with
  | zero => intro a ctr; rfl
  | succ d ih =>
    intro a ctr
    simp only [traverseNode, scanOkB]
    cases hread : read a with
    | error e => rfl
    | ok data => exact traverseChildren_isOk (traverseNode read d) (scanOkB read d) ih _ ctr

/-- Claim C7: the scan succeeds exactly when every internal node it
visits is readable; if the read of any internal node on the traversal
still fails after that node's retry budget (so `scanOkB` is false), the
whole scan and therefore the whole load aborts with the propagated error
and no leaf list is returned.  Leaf fetch failures, by contrast, are
handled later by the scheduler and never appear here, since the scan
does not read depth-0 nodes. -/
theorem scan_node_failure_aborts {ε : Type v} (read : Addr → Except ε (List Nat))
    (rootChunk : Addr) (depth : Nat) :
    ((∃ res, traverseNode read depth rootChunk 0 = .ok res) ↔
      scanOkB read depth rootChunk = true) ∧
    (scanOkB read depth rootChunk = false →
      ∃ e, collectLeafAddresses read rootChunk depth = .error e) := by
  have hok := traverseNode_isOk read depth rootChunk 0
  constructor
  · constructor
    · rintro ⟨res, hres⟩
      rw [hres] at hok
      exact hok.symm
    · intro hscan
      rw [hscan] at hok
      cases htrav : traverseNode read depth rootChunk 0 with
      | error e => rw [htrav] at hok; simp [Except.isOk, Except.toBool] at hok
      | ok res => exact ⟨res, rfl⟩
  · intro hscan
    rw [hscan] at hok
    cases htrav : traverseNode read depth rootChunk 0 with
    | error e =>
      refine ⟨e, ?_⟩
      rw [collectLeafAddresses, htrav]
    | ok res => rw [htrav] at hok; simp [Except.isOk, Except.toBool] at hok

/-- Demonstration store whose root node read fails (its retry budget is
exhausted). -/
def demoReadBad : Addr → Except String (List Nat) := fun a =>
  if a = demoAddr 9 then .error "node read failed after retries" else .ok []

/-- Witness for C7: with the failing root store at depth 1 the
readability predicate is false and the scan aborts with an error
instead of returning a leaf list. -/
theorem scan_node_failure_aborts_witness :
    ∃ e, collectLeafAddresses demoReadBad (demoAddr 9) 1 = .error e :=
  (scan_node_failure_aborts demoReadBad (demoAddr 9) 1).2 (by rfl)

/-- Internal-node payload of length 25 (not a multiple of the 20-byte
address width). -/
def payload25 : List Nat := List.replicate 25 7

/-- Demonstration store whose root (an internal node at depth 1) has the
malformed 25-byte payload. -/
def demoRead25 : Addr → Except String (List Nat) := fun a =>
  if a = demoAddr 9 then .ok payload25 else .ok []

/-- Counterexample to C6: on an internal node whose payload length is
25 (not a multiple of 20) the scan raises no error at all: it returns
two leaves, the second being the clamped 5-byte final slice, and in
particular it does not abort.  The code has no malformed-node check and
no `MalformedNodeError`. -/
theorem malformed_node_silently_accepted :
    collectLeafAddresses demoRead25 (demoAddr 9) 1 =
      .ok [(0, payload25.take 20), (1, payload25.drop 20)] ∧
    payload25.length % 20 = 5 ∧
    (payload25.drop 20).length = 5 ∧
    ∀ e : String, collectLeafAddresses demoRead25 (demoAddr 9) 1 ≠ .error e := by
  refine ⟨by rfl, by rfl, by rfl, ?_⟩
  intro e hcontra
  rw [show collectLeafAddresses demoRead25 (demoAddr 9) 1 =
    .ok [(0, payload25.take 20), (1, payload25.drop 20)] from rfl] at hcontra
  cases hcontra

lemma splitAddrsGo_flatten :
    ∀ fuel data, data.length ≤ fuel → (splitAddrsGo fuel data).flatten = data := by
  intro fuel
  induction fuel with
  | zero =>
    intro data hlen
    rw [List.length_eq_zero.mp (Nat.le_zero.mp hlen)]
    rfl
  | succ fuel ih =>
    intro data hlen
    cases data with
    | nil => rfl
    | cons x xs =>
      have hlen' : xs.length + 1 ≤ fuel + 1 := by simpa using hlen
      simp only [splitAddrsGo, List.flatten_cons]
      rw [ih ((x :: xs).drop 20)
        (by simp only [List.length_drop, List.length_cons]; omega)]
      exact List.take_append_drop 20 (x :: xs)

lemma splitAddrsGo_short :
    ∀ fuel data, data.length ≤ fuel → ∀ s ∈ splitAddrsGo fuel data, s.length ≤ 20 := by
  intro fuel
  induction fuel with
  | zero =>
    intro data hlen
    rw [List.length_eq_zero.mp (Nat.le_zero.mp hlen)]
    intro s hs
    cases hs
  | succ fuel ih =>
    intro data hlen
    cases data with
    | nil => intro s hs; cases hs
    | cons x xs =>
      intro s hs
      have hlen' : xs.length + 1 ≤ fuel + 1 := by simpa using hlen
      simp only [splitAddrsGo, List.mem_cons] at hs
      cases hs with
      | inl h => rw [h]; exact List.length_take_le 20 (x :: xs)
      | inr h =>
        exact ih ((x :: xs).drop 20)
          (by simp only [List.length_drop, List.length_cons]; omega) s h

lemma traverseChildren_depth0 (read : Addr → Except ε (List Nat)) :
    ∀ cs ctr, traverseChildren (traverseNode read 0) cs ctr =
      .ok (List.enumFrom ctr cs, ctr + cs.length) := by
  intro cs
  induction cs with
  | nil => intro ctr; simp [traverseChildren]
  | cons c cs ih =>
    intro ctr
    have harith : ctr + 1 + cs.length = ctr + (cs.length + 1) := by omega
    show (match traverseChildren (traverseNode read 0) cs (ctr + 1) with
      | Except.error e => Except.error e
      | Except.ok (l', ctr'') => Except.ok ((ctr, c) :: l', ctr'')) =
      Except.ok (List.enumFrom ctr (c :: cs), ctr + (c :: cs).length)
    rw [ih (ctr + 1), harith]
    rfl

/-- Amended claim C6: an internal node whose payload length is not a
multiple of 20 is not rejected; its payload is sliced into `take 20` /
`drop 20` pieces exactly like a well-formed one (the final slice being
shorter than 20 bytes), every slice is treated as a child address, the
concatenation of the slices is the original payload, and the scan
returns one leaf per slice with contiguous indices instead of raising
any error. -/
theorem malformed_node_split_amended {ε : Type v}
    (read : Addr → Except ε (List Nat)) (a : Addr) (ctr : Nat)
    (payload : List Nat) (h : read a = .ok payload) :
    traverseNode read 1 a ctr =
      .ok (List.enumFrom ctr (splitAddrs payload),
           ctr + (splitAddrs payload).length) ∧
    (splitAddrs payload).flatten = payload ∧
    ∀ s ∈ splitAddrs payload, s.length ≤ 20 := by
  refine ⟨?_, splitAddrsGo_flatten payload.length payload le_rfl,
    splitAddrsGo_short payload.length payload le_rfl⟩
  show (match read a with
    | Except.error e => Except.error e
    | Except.ok data => traverseChildren (traverseNode read 0) (splitAddrs data) ctr) = _
  rw [h]
  exact traverseChildren_depth0 read (splitAddrs payload) ctr

/-- Witness for the amended C6: at the concrete 25-byte store the
traversal returns the two slices as leaves 0 and 1. -/
theorem malformed_node_split_amended_witness :
    traverseNode demoRead25 1 (demoAddr 9) 0 =
      .ok (List.enumFrom 0 (splitAddrs payload25),
           0 + (splitAddrs payload25).length) :=
  (malformed_node_split_amended demoRead25 (demoAddr 9) 0 payload25 (by rfl)).1

/-! ### Assembler: `_assembleChunks` (dist/onchain_loader.js 404-416) and
the inline assembly of `fetchTreeSequential` (part_001 305-317) -/

/-- One completed chunk: its scan-assigned index and its payload bytes. -/
structure Chunk where
  index : Nat
  data : List Nat
deriving DecidableEq, Repr

/-- Comparator used by `chunks.sort((a, b) => a.index - b.index)`. -/
def chunkLE (a b : Chunk) : Prop := a.index ≤ b.index

/-- Strict version of the comparator, used to show that sorting chunks
with pairwise-distinct indices has a unique result. -/
def chunkLT (a b : Chunk) : Prop := a.index < b.index

instance : DecidableRel chunkLE := fun a b => Nat.decLe a.index b.index

instance : IsTotal Chunk chunkLE := ⟨fun a b => Nat.le_total a.index b.index⟩

instance : IsTrans Chunk chunkLE := ⟨fun _ _ _ => Nat.le_trans⟩

instance : IsAntisymm Chunk chunkLT :=
  ⟨fun _ _ h1 h2 => absurd (Nat.lt_trans h1 h2) (Nat.lt_irrefl _)⟩

/-- Model of `chunks.sort((a, b) => a.index - b.index)`: a comparison
sort by ascending index (JavaScript `Array.prototype.sort` is stable;
stability is irrelevant once indices are distinct). -/
def sortChunks (chunks : List Chunk) : List Chunk :=
  List.insertionSort chunkLE chunks

/-- Model of `_assembleChunks` (dist/onchain_loader.js 404-416): sort by
ascending index, then write each payload at the running offset, which is
concatenation with no padding or separators. -/
def assembleChunks (chunks : List Chunk) : List Nat :=
  (sortChunks chunks).foldl (fun acc c => acc ++ c.data) []

lemma foldl_append_data :
    ∀ (l : List Chunk) (acc : List Nat),
      l.foldl (fun acc c => acc ++ c.data) acc = acc ++ (l.map Chunk.data).flatten := by
  intro l
  induction l with
  | nil => intro acc; simp
  | cons c cs ih => intro acc; simp [ih, List.append_assoc]

lemma sortChunks_perm (chunks : List Chunk) : List.Perm (sortChunks chunks) chunks :=
  List.perm_insertionSort chunkLE chunks

lemma sortChunks_sorted (chunks : List Chunk) :
    (sortChunks chunks).Sorted chunkLE :=
  List.sorted_insertionSort chunkLE chunks

lemma sorted_lt_of_sorted_le_nodup (l : List Chunk)
    (hs : l.Sorted chunkLE) (hnodup : (l.map Chunk.index).Nodup) :
    l.Sorted chunkLT := by
  have hne : l.Pairwise (fun a b => a.index ≠ b.index) :=
    (List.pairwise_map).mp hnodup
  exact (hs.and hne).imp (fun h => Nat.lt_of_le_of_ne h.1 h.2)

lemma sortChunks_eq_of_perm (c₁ c₂ : List Chunk) (hperm : List.Perm c₁ c₂)
    (hnodup : (c₂.map Chunk.index).Nodup) : sortChunks c₁ = sortChunks c₂ := by
  have hp : List.Perm (sortChunks c₁) (sortChunks c₂) :=
    ((sortChunks_perm c₁).trans hperm).trans (sortChunks_perm c₂).symm
  have hn₂ : ((sortChunks c₂).map Chunk.index).Nodup :=
    (((sortChunks_perm c₂).map Chunk.index).nodup_iff).mpr hnodup
  have hn₁ : ((sortChunks c₁).map Chunk.index).Nodup :=
    ((hp.map Chunk.index).nodup_iff).mpr hn₂
  exact List.eq_of_perm_of_sorted hp
    (sorted_lt_of_sorted_le_nodup _ (sortChunks_sorted c₁) hn₁)
    (sorted_lt_of_sorted_le_nodup _ (sortChunks_sorted c₂) hn₂)

/-- Claim C2: the assembler output is the concatenation of the payloads
in ascending index order with no padding or separators (the output is
the flattening of the index-sorted payload list); its length is the sum
of the included payload lengths; for chunks with pairwise-distinct
indices the output is independent of insertion order; and the chunk set
`{0 ↦ "AB", 1 ↦ "CD", 2 ↦ "EF"}` yields `"ABCDEF"` in every insertion
order (three orders shown concretely, the rest by the permutation
property). -/
theorem assemble_concat_sorted_order_independent (chunks : List Chunk) :
    ((assembleChunks chunks).length = (chunks.map (fun c => c.data.length)).sum) ∧
    (List.Perm (sortChunks chunks) chunks ∧ (sortChunks chunks).Sorted chunkLE ∧
      assembleChunks chunks = ((sortChunks chunks).map Chunk.data).flatten) ∧
    ((chunks.map Chunk.index).Nodup →
      ∀ chunks', List.Perm chunks' chunks → assembleChunks chunks' = assembleChunks chunks) ∧
    (assembleChunks [⟨2, [69, 70]⟩, ⟨0, [65, 66]⟩, ⟨1, [67, 68]⟩] =
        [65, 66, 67, 68, 69, 70] ∧
      assembleChunks [⟨1, [67, 68]⟩, ⟨2, [69, 70]⟩, ⟨0, [65, 66]⟩] =
        [65, 66, 67, 68, 69, 70] ∧
      assembleChunks [⟨0, [65, 66]⟩, ⟨1, [67, 68]⟩, ⟨2, [69, 70]⟩] =
        [65, 66, 67, 68, 69, 70]) := by
  refine ⟨?_, ⟨sortChunks_perm chunks, sortChunks_sorted chunks, ?_⟩, ?_, by decide⟩
  · rw [assembleChunks, foldl_append_data, List.nil_append, List.length_flatten,
      List.map_map]
    exact List.Perm.sum_eq (((sortChunks_perm chunks).map _))
  · rw [assembleChunks, foldl_append_data, List.nil_append]
  · intro hnodup chunks' hperm
    rw [assembleChunks, assembleChunks, sortChunks_eq_of_perm chunks' chunks hperm hnodup]

/-- Witness for C2: applying the order-independence part at a concrete
two-chunk set supplied in swapped insertion order. -/
theorem assemble_concat_sorted_order_independent_witness :
    assembleChunks [⟨1, [67, 68]⟩, ⟨0, [65, 66]⟩] =
      assembleChunks [⟨0, [65, 66]⟩, ⟨1, [67, 68]⟩] :=
  (assemble_concat_sorted_order_independent
    [⟨0, [65, 66]⟩, ⟨1, [67, 68]⟩]).2.2.1 (by decide) _ (by decide)

/-! ### Phased scheduler: `loadChunksSequentially` (part_001 212-235),
`retryFailedChunks` (part_001 238-278) and `_loadChunks`
(dist/onchain_loader.js 339-377) -/

/-- One discovered leaf as queued for loading: its scan index and its
address. -/
structure Leaf (α : Type u) : Type u where
  index : Nat
  address : α
deriving DecidableEq, Repr

/-- Loop body of pass 1 (`loadChunksSequentially`, part_001 216-233):
fetch the leaf with the light budget of 2 attempts
(`fetchChunkData(leaf.address, 2)`); on success push
`{index, data}` to the chunk list, on failure push the leaf to the
failed list.  `fetch round address retries` is the outcome of one
`fetchChunkData(address, retries)` call made in the given retry round
(round 0 is pass 1). -/
def pass1Step (fetch : Nat → α → Nat → Option (List Nat))
    (acc : List Chunk × List (Leaf α)) (leaf : Leaf α) :
    List Chunk × List (Leaf α) :=
  match fetch 0 leaf.address 2 with
  | some data => (acc.1 ++ [⟨leaf.index, data⟩], acc.2)
  | none => (acc.1, acc.2 ++ [leaf])

/-- Model of pass 1 of the phased scheduler (part_001 212-235; the same
loop is dist/onchain_loader.js 343-352 with positional indices): attempt
every leaf once, in order, with the light retry profile. -/
def loadChunksSequentially (fetch : Nat → α → Nat → Option (List Nat))
    (leaves : List (Leaf α)) : List Chunk × List (Leaf α) :=
  leaves.foldl (pass1Step fetch) ([], [])

/-- Loop body of one retry round (part_001 254-268): fetch the failing
leaf with the resilient budget of 3 attempts, then pace by a 100 ms
sleep whether it succeeded or not.  The accumulator carries the chunk
list, the still-failing list and the elapsed waiting time. -/
def retryStep (fetch : Nat → α → Nat → Option (List Nat)) (r : Nat)
    (acc : List Chunk × List (Leaf α) × Nat) (leaf : Leaf α) :
    List Chunk × List (Leaf α) × Nat :=
  match fetch r leaf.address 3 with
  | some data => (acc.1 ++ [⟨leaf.index, data⟩], acc.2.1, acc.2.2 + 100)
  | none => (acc.1, acc.2.1 ++ [leaf], acc.2.2 + 100)

/-- One full retry round `r` over the current failing list. -/
def retryRound (fetch : Nat → α → Nat → Option (List Nat)) (r : Nat)
    (toRetry : List (Leaf α)) (chunks : List Chunk) (waited : Nat) :
    List Chunk × List (Leaf α) × Nat :=
  toRetry.foldl (retryStep fetch r) (chunks, [], waited)

/-- Model of the `while (toRetry.length > 0 && retryRound < 5)` loop of
`retryFailedChunks` (part_001 245-271; identically
dist/onchain_loader.js 358-374).  `rem` is the number of rounds still
allowed (`5 - round`); round `r = round + 1` first sleeps `500 * r`,
then retries every still-failing item with the resilient budget, pacing
items by 100 ms.  Returns the chunk list, the permanently failing list,
the last round number run and the total time waited. -/
def retryLoop (fetch : Nat → α → Nat → Option (List Nat)) :
    Nat → List (Leaf α) → List Chunk → Nat → Nat →
      List Chunk × List (Leaf α) × Nat × Nat
  | 0, toRetry, chunks, round, waited => (chunks, toRetry, round, waited)
  | rem + 1, toRetry, chunks, round, waited =>
    if toRetry.isEmpty then (chunks, toRetry, round, waited)
    else
      let r := round + 1
      let out := retryRound fetch r toRetry chunks (waited + 500 * r)
      retryLoop fetch rem out.2.1 out.1 r out.2.2

/-- Model of `retryFailedChunks(failed, chunks)` (part_001 238-278): up
to 5 retry rounds; what still fails afterwards is permanently failed and
its count is reported (part_001 275-277 logs
"N chunks permanently failed"). -/
def retryFailedChunks (fetch : Nat → α → Nat → Option (List Nat))
    (failed : List (Leaf α)) (chunks : List Chunk) :
    List Chunk × List (Leaf α) × Nat × Nat :=
  retryLoop fetch 5 failed chunks 0 0

/-- Pass 1 followed by the retry rounds: the load phase of
`fetchTreeSequential` (part_001 292-303) and of `_loadChunks`
(dist/onchain_loader.js 339-377). -/
def loadAndRetry (fetch : Nat → α → Nat → Option (List Nat))
    (leaves : List (Leaf α)) : List Chunk × List (Leaf α) × Nat × Nat :=
  let p := loadChunksSequentially fetch leaves
  retryFailedChunks fetch p.2 p.1

/-- Model of `fetchTreeSequential(rootChunk, depth, totalSize)`
(part_001 281-322): scan, load with retry rounds, sort by index and
assemble; a scan error aborts the whole load, while leaf failures are
absorbed.  Returns the assembled buffer together with the reported count
of permanently failed chunks. -/
def fetchTreeSequentialModel (read : Addr → Except ε (List Nat))
    (fetch : Nat → Addr → Nat → Option (List Nat))
    (rootChunk : Addr) (depth : Nat) : Except ε (List Nat × Nat) :=
  match collectLeafAddresses read rootChunk depth with
  | .error e => .error e
  | .ok leaves =>
    let out := loadAndRetry fetch (leaves.map (fun p => Leaf.mk p.1 p.2))
    .ok (assembleChunks out.1, out.2.1.length)

section PhasedLemmas

variable {α : Type u} (fetch : Nat → α → Nat → Option (List Nat))

lemma loadChunksSequentially_eq_go :
    ∀ (leaves : List (Leaf α)) acc,
      leaves.foldl (pass1Step fetch) acc =
        (acc.1 ++ leaves.filterMap
          (fun l => (fetch 0 l.address 2).map (fun d => Chunk.mk l.index d)),
         acc.2 ++ leaves.filter (fun l => (fetch 0 l.address 2).isNone)) := by
  intro leaves
  induction leaves with
  | nil => intro acc; simp
  | cons l ls ih =>
    intro acc
    cases hf : fetch 0 l.address 2 with
    | some d =>
      simp [List.foldl_cons, pass1Step, hf, ih, List.filterMap_cons,
        List.filter_cons, List.append_assoc]
    | none =>
      simp [List.foldl_cons, pass1Step, hf, ih, List.filterMap_cons,
        List.filter_cons, List.append_assoc]

lemma retryRound_eq_go (r : Nat) :
    ∀ (toRetry : List (Leaf α)) acc,
      toRetry.foldl (retryStep fetch r) acc =
        (acc.1 ++ toRetry.filterMap
          (fun l => (fetch r l.address 3).map (fun d => Chunk.mk l.index d)),
         acc.2.1 ++ toRetry.filter (fun l => (fetch r l.address 3).isNone),
         acc.2.2 + 100 * toRetry.length) := by
  intro toRetry
  induction toRetry with
  | nil => intro acc; simp
  | cons l ls ih =>
    intro acc
    cases hf : fetch r l.address 3 with
    | some d =>
      simp [List.foldl_cons, retryStep, hf, ih, List.filterMap_cons,
        List.filter_cons, List.append_assoc, List.length_cons]
      omega
    | none =>
      simp [List.foldl_cons, retryStep, hf, ih, List.filterMap_cons,
        List.filter_cons, List.append_assoc, List.length_cons]
      omega

lemma retryLoop_failed_eq :
    ∀ rem (toRetry : List (Leaf α)) chunks round waited,
      (retryLoop fetch rem toRetry chunks round waited).2.1 =
        toRetry.filter (fun l => (List.range' (round + 1) rem).all
          (fun r => (fetch r l.address 3).isNone)) := by
  intro rem
  induction rem with
  | zero =>
    intro toRetry chunks round waited
    simp [retryLoop, List.range']
  | succ rem ih =>
    intro toRetry chunks round waited
    by_cases htr : toRetry.isEmpty
    · rw [List.isEmpty_iff.mp htr]
      simp [retryLoop]
    · simp only [retryLoop, if_neg htr, retryRound, retryRound_eq_go]
      rw [ih, List.nil_append, List.filter_filter]
      refine List.filter_congr ?_
      intro l hl
      simp [List.range'_succ, List.all_cons, Bool.and_comm]

lemma retryLoop_round_le :
    ∀ rem (toRetry : List (Leaf α)) chunks round waited,
      (retryLoop fetch rem toRetry chunks round waited).2.2.1 ≤ round + rem := by
  intro rem
  induction rem with
  | zero => intro toRetry chunks round waited; simp [retryLoop]
  | succ rem ih =>
    intro toRetry chunks round waited
    by_cases htr : toRetry.isEmpty
    · simp [retryLoop, if_pos htr]
    · simp only [retryLoop, if_neg htr]
      exact Nat.le_trans (ih _ _ _ _) (by omega)

end PhasedLemmas

/-- Per-round fetch outcome for the 10-leaf demonstration: addresses 2
and 7 always fail, every other address always yields its one-byte
payload. -/
def demoFetchFlaky : Nat → Nat → Nat → Option (List Nat) := fun _ a _ =>
  if a = 2 ∨ a = 7 then none else some [a]

/-- Ten leaves with indices and addresses `0 .. 9`. -/
def demoLeaves10 : List (Leaf Nat) := (List.range 10).map (fun i => ⟨i, i⟩)

/-- Root address of the 10-leaf demonstration tree. -/
def demoRootTen : Addr := demoAddr 99

/-- Store of the 10-leaf demonstration tree: the root's payload is the
concatenation of the ten 20-byte leaf addresses. -/
def demoReadTen : Addr → Except String (List Nat) := fun a =>
  if a = demoRootTen then .ok ((List.range 10).map demoAddr).flatten else .ok []

/-- Leaf-fetch outcome for the 10-leaf demonstration tree: the leaves at
`demoAddr 2` and `demoAddr 7` always fail, the rest yield one byte. -/
def demoFetchAddrFlaky : Nat → Addr → Nat → Option (List Nat) := fun _ a _ =>
  if a = demoAddr 2 ∨ a = demoAddr 7 then none else some [1]

set_option maxRecDepth 8000 in
/-- Claim C4: pass 1 attempts every leaf exactly once with the light
profile (budget 2), partitioning the leaves in order into loaded chunks
and failures; at most 5 retry rounds run, round `r` preceded by a
`500 * r` wait and pacing each item by 100 ms with the resilient profile
(budget 3); a leaf is permanently failed exactly when it fails pass 1
and all five rounds, and the count of permanently failed chunks is
reported while the load proceeds to assembly with whatever succeeded.
Concretely, with 10 leaves of which addresses 2 and 7 always fail, the
load completes with 8 assembled chunks after 5 rounds and 8500 ms of
scheduler waits, reports 2 permanently failed, and the assembled buffer
(8 bytes) is shorter than the full expected size (10 bytes). -/
theorem phased_best_effort_retry_rounds {α : Type u}
    (fetch : Nat → α → Nat → Option (List Nat)) (leaves : List (Leaf α)) :
    (loadChunksSequentially fetch leaves =
      (leaves.filterMap
        (fun l => (fetch 0 l.address 2).map (fun d => Chunk.mk l.index d)),
       leaves.filter (fun l => (fetch 0 l.address 2).isNone))) ∧
    ((loadAndRetry fetch leaves).2.2.1 ≤ 5) ∧
    ((loadAndRetry fetch leaves).2.1 =
      leaves.filter (fun l => (fetch 0 l.address 2).isNone &&
        (List.range' 1 5).all (fun r => (fetch r l.address 3).isNone))) ∧
    ((loadAndRetry demoFetchFlaky demoLeaves10).1.length = 8 ∧
      (loadAndRetry demoFetchFlaky demoLeaves10).2.1 = [⟨2, 2⟩, ⟨7, 7⟩] ∧
      (loadAndRetry demoFetchFlaky demoLeaves10).2.2.1 = 5 ∧
      (loadAndRetry demoFetchFlaky demoLeaves10).2.2.2 = 8500 ∧
      assembleChunks (loadAndRetry demoFetchFlaky demoLeaves10).1 =
        [0, 1, 3, 4, 5, 6, 8, 9] ∧
      fetchTreeSequentialModel demoReadTen demoFetchAddrFlaky demoRootTen 1 =
        .ok (List.replicate 8 1, 2) ∧
      (List.replicate 8 1).length < demoLeaves10.length) := by
  refine ⟨?_, ?_, ?_, by decide, by decide, by decide, by decide, by decide,
    by rfl, by decide⟩
  · simpa [loadChunksSequentially] using
      loadChunksSequentially_eq_go fetch leaves ([], [])
  · exact retryLoop_round_le fetch 5 _ _ 0 0
  · have hp : (loadChunksSequentially fetch leaves).2 =
        leaves.filter (fun l => (fetch 0 l.address 2).isNone) := by
      have := congrArg Prod.snd (loadChunksSequentially_eq_go fetch leaves ([], []))
      simpa [loadChunksSequentially] using this
    show (retryLoop fetch 5 (loadChunksSequentially fetch leaves).2
      (loadChunksSequentially fetch leaves).1 0 0).2.1 = _
    rw [retryLoop_failed_eq, hp, List.filter_filter]
    refine List.filter_congr ?_
    intro l hl
    simp [Bool.and_comm]

/-! ### Overlapped scheduler: `loadWorker` (part_001 519-552) and the
completion polling of `fetchTree` (part_001 638-646) -/

/-- Model of `loadResults.set(address, data)` on an association-list
representation of the `Map`: replace the entry if the key is present,
otherwise append it.  `Map.size` is the list length. -/
def mapSet [DecidableEq α] (m : List (α × List Nat)) (k : α) (v : List Nat) :
    List (α × List Nat) :=
  if m.any (fun p => p.1 == k) then
    m.map (fun p => if p.1 == k then (k, v) else p)
  else m ++ [(k, v)]

/-- One iteration of the `loadWorker` loop (part_001 524-549) on the
shared state (pending queue, results map): take the head of the queue,
fetch it through `fetchWithRetry(fn, 10, 1000)` (abstracted by
`reach address`, its outcome after the resilient budget), record the
payload keyed by address on success, or re-enqueue the item at the tail
on failure.  With an empty queue the worker just waits. -/
def workerStep [DecidableEq α] (reach : α → Option (List Nat)) :
    List (Leaf α) × List (α × List Nat) → List (Leaf α) × List (α × List Nat)
  | ([], results) => ([], results)
  | (chunk :: rest, results) =>
    match reach chunk.address with
    | some data => (rest, mapSet results chunk.address data)
    | none => (rest ++ [chunk], results)

/-- State of the worker after `n` iterations, starting from the fully
scanned queue and an empty results map. -/
def workerTrace [DecidableEq α] (reach : α → Option (List Nat))
    (initQueue : List (Leaf α)) : Nat → List (Leaf α) × List (α × List Nat)
  | 0 => (initQueue, [])
  | n + 1 => workerStep reach (workerTrace reach initQueue n)

/-- Model of the completion-polling loop of `fetchTree` (part_001
638-646): `while (loadResults.size < leafChunks.length) { if (Date.now()
- start > maxWait) throw Timeout: size/total; sleep 500 }`.  `sizeAt k`
is `loadResults.size` as observed at poll `k` (500 ms apart); the fuel
is the number of remaining polls, chosen large enough that it runs out
only past the deadline (where the fallback raises the same timeout). -/
def waitLoopGo (sizeAt : Nat → Nat) (total maxWait : Nat) :
    Nat → Nat → Except (Nat × Nat) Nat
  | 0, k =>
    if sizeAt k ≥ total then .ok k
    else .error (sizeAt k, total)
  | fuel + 1, k =>
    if sizeAt k ≥ total then .ok k
    else if 500 * k > maxWait then .error (sizeAt k, total)
    else waitLoopGo sizeAt total maxWait fuel (k + 1)

/-- Completion polling as `fetchTree` runs it, from poll 0 with enough
fuel to reach the deadline (`maxWait = 120000` at the call site,
part_001 638).  Returns the successful poll index, or the timeout error
`Timeout: loaded/total` carrying the loaded count and the leaf count. -/
def waitForLoads (sizeAt : Nat → Nat) (total maxWait : Nat) :
    Except (Nat × Nat) Nat :=
  waitLoopGo sizeAt total maxWait (maxWait / 500 + 1) 0

section OverlappedLemmas

variable {α : Type u} [DecidableEq α]

lemma waitLoopGo_error_of_never (sizeAt : Nat → Nat) (total maxWait : Nat)
    (hlt : ∀ j, sizeAt j < total) :
    ∀ fuel k, ∃ j, waitLoopGo sizeAt total maxWait fuel k =
      .error (sizeAt j, total) := by
  intro fuel
  induction fuel with
  | zero =>
    intro k
    exact ⟨k, by simp [waitLoopGo, Nat.not_le.mpr (hlt k)]⟩
  | succ fuel ih =>
    intro k
    by_cases hd : 500 * k > maxWait
    · exact ⟨k, by simp [waitLoopGo, Nat.not_le.mpr (hlt k), hd]⟩
    · obtain ⟨j, hj⟩ := ih (k + 1)
      exact ⟨j, by simpa [waitLoopGo, Nat.not_le.mpr (hlt k), hd] using hj⟩

lemma waitLoopGo_error_stable (sizeAt : Nat → Nat) (total maxWait L J : Nat)
    (hlt : ∀ j, sizeAt j < total) (hstab : ∀ j, J ≤ j → sizeAt j = L)
    (hJle : 500 * J ≤ maxWait) :
    ∀ fuel k, 500 * (fuel + k) > maxWait →
      waitLoopGo sizeAt total maxWait fuel k = .error (L, total) := by
  intro fuel
  induction fuel with
  | zero =>
    intro k hk
    have hJk : J ≤ k := by
      by_contra hc
      push_neg at hc
      have : 500 * k < 500 * J := by omega
      omega
    simp [waitLoopGo, Nat.not_le.mpr (hlt k), hstab k hJk]
    rw [← hstab k hJk]
    exact hlt k
  | succ fuel ih =>
    intro k hk
    by_cases hd : 500 * k > maxWait
    · have hJk : J ≤ k := by
        by_contra hc
        push_neg at hc
        have : 500 * k < 500 * J := by omega
        omega
      simp [waitLoopGo, Nat.not_le.mpr (hlt k), hd, hstab k hJk]
      rw [← hstab k hJk]
      exact hlt k
    · have := ih (k + 1) (by omega)
      simpa [waitLoopGo, Nat.not_le.mpr (hlt k), hd] using this

lemma waitForLoads_ok (sizeAt : Nat → Nat) (total maxWait : Nat)
    (h : total ≤ sizeAt 0) : waitForLoads sizeAt total maxWait = .ok 0 := by
  simp [waitForLoads, waitLoopGo, h]

end OverlappedLemmas

/-- Reachability of the 10-leaf demonstration under the overlapped
scheduler: addresses 2 and 7 are permanently unreachable (their
resilient retry budget is always exhausted), the rest succeed. -/
def demoReachFlaky : Nat → Option (List Nat) := fun a =>
  if a = 2 ∨ a = 7 then none else some [a]

/-- Results map after the overlapped worker has loaded the 8 reachable
leaves of the demonstration queue. -/
def demoResults8 : List (Nat × List Nat) :=
  [(0, [0]), (1, [1]), (3, [3]), (4, [4]), (5, [5]), (6, [6]), (8, [8]), (9, [9])]

/-- Observed `loadResults.size` at poll `k` of the demonstration run,
sampling the worker after `k` iterations. -/
def demoSizeAt (k : Nat) : Nat :=
  ((workerTrace demoReachFlaky demoLeaves10 k).2).length

lemma demoTrace_cycle : ∀ n,
    workerTrace demoReachFlaky demoLeaves10 (10 + n) =
      ([⟨2, 2⟩, ⟨7, 7⟩], demoResults8) ∨
    workerTrace demoReachFlaky demoLeaves10 (10 + n) =
      ([⟨7, 7⟩, ⟨2, 2⟩], demoResults8) := by
  intro n
  induction n with
  | zero => left; decide
  | succ n ih =>
    have hstep : workerTrace demoReachFlaky demoLeaves10 (10 + (n + 1)) =
        workerStep demoReachFlaky (workerTrace demoReachFlaky demoLeaves10 (10 + n)) :=
      rfl
    rcases ih with h | h <;> rw [hstep, h]
    · right; decide
    · left; decide

lemma demoSizeAt_stable : ∀ j, 10 ≤ j → demoSizeAt j = 8 := by
  intro j hj
  obtain ⟨n, rfl⟩ : ∃ n, j = 10 + n := ⟨j - 10, by omega⟩
  rcases demoTrace_cycle n with h | h <;>
    simp [demoSizeAt, h, demoResults8]

lemma demoSizeAt_lt : ∀ j, demoSizeAt j < 10 := by
  intro j
  by_cases hj : j < 10
  · revert hj
    revert j
    decide
  · rw [demoSizeAt_stable j (by omega)]
    omega

/-- Claim C5: in the overlapped scheduler a queue item whose own retry
budget is exhausted is re-enqueued at the tail of the pending queue with
the results map unchanged (there is no permanent-failure state at all);
completion is polled as loaded count = leaf count, an already-complete
run finishing immediately; whenever the loaded count stays below the
leaf count the poll loop necessarily ends in the timeout error carrying
(loaded, total); and concretely, for 10 leaves of which 2 addresses are
permanently unreachable the run never completes and raises the timeout
failure `(8, 10)` at the 120000 ms deadline used by `fetchTree`. -/
theorem overlapped_requeue_and_timeout :
    (∀ (reach : Nat → Option (List Nat)) (chunk : Leaf Nat)
        (rest : List (Leaf Nat)) (results : List (Nat × List Nat)),
      reach chunk.address = none →
        workerStep reach (chunk :: rest, results) = (rest ++ [chunk], results)) ∧
    (∀ (sizeAt : Nat → Nat) (total maxWait : Nat), total ≤ sizeAt 0 →
      waitForLoads sizeAt total maxWait = .ok 0) ∧
    (∀ (sizeAt : Nat → Nat) (total maxWait : Nat), (∀ j, sizeAt j < total) →
      ∃ j, waitForLoads sizeAt total maxWait = .error (sizeAt j, total)) ∧
    waitForLoads demoSizeAt 10 120000 = .error (8, 10) := by
  refine ⟨?_, waitForLoads_ok, ?_, ?_⟩
  · intro reach chunk rest results h
    simp [workerStep, h]
  · intro sizeAt total maxWait hlt
    exact waitLoopGo_error_of_never sizeAt total maxWait hlt _ 0
  · exact waitLoopGo_error_stable demoSizeAt 10 120000 8 10 demoSizeAt_lt
      demoSizeAt_stable (by omega) _ 0 (by omega)

/-- Witness for C5: the unreachable item at the head of a concrete
queue is re-enqueued at the tail with the results map untouched. -/
theorem overlapped_requeue_and_timeout_witness :
    workerStep demoReachFlaky ([⟨2, 2⟩, ⟨7, 7⟩], demoResults8) =
      ([⟨7, 7⟩, ⟨2, 2⟩], demoResults8) :=
  overlapped_requeue_and_timeout.1 demoReachFlaky ⟨2, 2⟩ [⟨7, 7⟩] demoResults8
    (by rfl)

section DuplicateLemmas

variable {α : Type u} [DecidableEq α]

/-- Invariant of the overlapped worker run: the results-map keys are
distinct and drawn from the leaf addresses, and every queued item is one
of the leaves' addresses. -/
def WorkerInv (addrs : List α) (s : List (Leaf α) × List (α × List Nat)) : Prop :=
  (s.2.map Prod.fst).Nodup ∧
  (∀ x ∈ s.2.map Prod.fst, x ∈ addrs) ∧
  (∀ c ∈ s.1, c.address ∈ addrs)

lemma mapSet_map_fst_mem (m : List (α × List Nat)) (k : α) (v : List Nat)
    (h : m.any (fun p => p.1 == k) = true) :
    (mapSet m k v).map Prod.fst = m.map Prod.fst := by
  rw [mapSet, if_pos h, List.map_map]
  refine List.map_congr_left ?_
  intro p hp
  by_cases hb : p.1 == k
  · simp only [Function.comp_apply, if_pos hb]
    exact (eq_of_beq hb).symm
  · simp only [Function.comp_apply, if_neg hb]

lemma mapSet_map_fst_new (m : List (α × List Nat)) (k : α) (v : List Nat)
    (h : ¬ m.any (fun p => p.1 == k) = true) :
    (mapSet m k v).map Prod.fst = m.map Prod.fst ++ [k] := by
  rw [mapSet, if_neg h, List.map_append]
  rfl

lemma not_any_beq_not_mem (m : List (α × List Nat)) (k : α)
    (h : ¬ m.any (fun p => p.1 == k) = true) : k ∉ m.map Prod.fst := by
  intro hmem
  apply h
  rw [List.any_eq_true]
  obtain ⟨p, hp, hfst⟩ := List.mem_map.mp hmem
  exact ⟨p, hp, by rw [hfst]; exact beq_self_eq_true k⟩

lemma workerStep_inv (reach : α → Option (List Nat)) (addrs : List α)
    (s : List (Leaf α) × List (α × List Nat)) (h : WorkerInv addrs s) :
    WorkerInv addrs (workerStep reach s) := by
  obtain ⟨q, res⟩ := s
  obtain ⟨hnd, hkeys, hq⟩ := h
  cases q with
  | nil => exact ⟨hnd, hkeys, by simp [workerStep]⟩
  | cons c rest =>
    cases hr : reach c.address with
    | none =>
      rw [show workerStep reach (c :: rest, res) = (rest ++ [c], res) from by
        simp [workerStep, hr]]
      refine ⟨hnd, hkeys, ?_⟩
      intro x hx
      rcases List.mem_append.mp hx with hx | hx
      · exact hq x (List.mem_cons_of_mem c hx)
      · rw [List.mem_singleton.mp hx]
        exact hq c (List.mem_cons_self c rest)
    | some d =>
      rw [show workerStep reach (c :: rest, res) = (rest, mapSet res c.address d) from by
        simp [workerStep, hr]]
      have hcaddr : c.address ∈ addrs := hq c (List.mem_cons_self c rest)
      by_cases hany : res.any (fun p => p.1 == c.address) = true
      · rw [WorkerInv, mapSet_map_fst_mem res c.address d hany]
        exact ⟨hnd, hkeys, fun x hx => hq x (List.mem_cons_of_mem c hx)⟩
      · rw [WorkerInv, mapSet_map_fst_new res c.address d hany]
        refine ⟨?_, ?_, fun x hx => hq x (List.mem_cons_of_mem c hx)⟩
        · rw [List.nodup_append]
          exact ⟨hnd, List.nodup_singleton _, fun x hx hx' =>
            absurd (List.mem_singleton.mp hx' ▸ hx)
              (not_any_beq_not_mem res c.address hany)⟩
        · intro x hx
          rcases List.mem_append.mp hx with hx | hx
          · exact hkeys x hx
          · rw [List.mem_singleton.mp hx]
            exact hcaddr

lemma workerTrace_inv (reach : α → Option (List Nat)) (leaves : List (Leaf α)) :
    ∀ n, WorkerInv (leaves.map Leaf.address) (workerTrace reach leaves n) := by
  intro n
  induction n with
  | zero =>
    rw [show workerTrace reach leaves 0 = (leaves, ([] : List (α × List Nat))) from rfl]
    exact ⟨List.nodup_nil, by simp, fun c hc => List.mem_map.mpr ⟨c, hc, rfl⟩⟩
  | succ n ih => exact workerStep_inv reach _ _ ih

lemma workerTrace_size_lt (reach : α → Option (List Nat)) (leaves : List (Leaf α))
    (hdup : ¬ (leaves.map Leaf.address).Nodup) :
    ∀ k, ((workerTrace reach leaves k).2).length < leaves.length := by
  intro k
  obtain ⟨hnd, hkeys, -⟩ := workerTrace_inv reach leaves k
  have hlen : ((workerTrace reach leaves k).2).length =
      (((workerTrace reach leaves k).2).map Prod.fst).length :=
    (List.length_map _ _).symm
  have hsub : ((workerTrace reach leaves k).2).map Prod.fst ⊆
      (leaves.map Leaf.address).dedup :=
    fun x hx => List.mem_dedup.mpr (hkeys x hx)
  have h1 : (((workerTrace reach leaves k).2).map Prod.fst).length ≤
      ((leaves.map Leaf.address).dedup).length :=
    (hnd.subperm hsub).length_le
  have hsl : List.Sublist ((leaves.map Leaf.address).dedup) (leaves.map Leaf.address) :=
    List.dedup_sublist _
  have h2 : ((leaves.map Leaf.address).dedup).length <
      (leaves.map Leaf.address).length := by
    rcases Nat.lt_or_ge ((leaves.map Leaf.address).dedup).length
      (leaves.map Leaf.address).length with h | h
    · exact h
    · exact absurd ((hsl.eq_of_length (le_antisymm hsl.length_le h)) ▸
        List.nodup_dedup (leaves.map Leaf.address)) hdup
  have h3 : (leaves.map Leaf.address).length = leaves.length := List.length_map _ _
  omega

end DuplicateLemmas

/-- Claim C10: in the overlapped scheduler the results map is keyed by
chunk address, so with two leaves sharing an address its size always
stays strictly below the leaf count, even when every fetch succeeds;
the completion condition `loadResults.size = leafChunks.length` can
never hold and the polling loop necessarily ends by raising the timeout
error (carrying the loaded count and the leaf count). -/
theorem duplicate_address_forces_timeout {α : Type u} [DecidableEq α]
    (reach : α → Option (List Nat)) (leaves : List (Leaf α))
    (hdup : ¬ (leaves.map Leaf.address).Nodup) :
    (∀ k, ((workerTrace reach leaves k).2).length < leaves.length) ∧
    (∀ maxWait, ∃ j,
      waitForLoads (fun k => ((workerTrace reach leaves k).2).length)
          leaves.length maxWait =
        .error (((workerTrace reach leaves j).2).length, leaves.length)) := by
  refine ⟨workerTrace_size_lt reach leaves hdup, ?_⟩
  intro maxWait
  exact waitLoopGo_error_of_never _ leaves.length maxWait
    (workerTrace_size_lt reach leaves hdup) _ 0

/-- Witness for C10: two leaves sharing address 5, with every fetch
succeeding; after any number of worker steps the results map stays
smaller than the leaf count. -/
theorem duplicate_address_forces_timeout_witness :
    ((workerTrace (fun _ => some []) [⟨0, 5⟩, ⟨1, 5⟩] 3).2).length < 2 :=
  (duplicate_address_forces_timeout (fun _ => some [])
    [⟨0, 5⟩, ⟨1, 5⟩] (by decide)).1 3

/-! ### Encoding detection: `_decodeContent` (dist/onchain_loader.js
422-430) and the inline detection of `init` (part_001 356-365) -/

/-- Unicode replacement character U+FFFD, emitted by the decoders for
bytes that do not form a valid sequence. -/
def replacementChar : Char := Char.ofNat 0xFFFD

/-- Model of `new TextDecoder('ascii', { fatal: false }).decode`: the
`ascii` label is the ASCII-compatible windows-1252 decoder, mapping each
byte to one character; bytes below 0x80 map to their ASCII characters,
and bytes at or above 0x80 map to (here Latin-1-numbered) non-ASCII
characters, which is all the ASCII-only marker search can observe. -/
def asciiDecode (bytes : List Nat) : List Char :=
  bytes.map (fun b => Char.ofNat (b % 256))

/-- Byte loop of the UTF-8 decoder.  The fuel bounds the number of
remaining bytes (`utf8Decode` calls it with the buffer length, which is
always sufficient, so the `0` fallback is unreachable): standard UTF-8
decoding of 1- to 4-byte sequences, with the replacement character for
lead or continuation bytes outside their valid ranges. -/
def utf8DecodeGo : Nat → List Nat → List Char
  | _, [] => []
  | 0, _ => []
  | fuel + 1, b :: rest =>
    if b < 0x80 then Char.ofNat b :: utf8DecodeGo fuel rest
    else if 0xC2 ≤ b ∧ b ≤ 0xDF then
      match rest with
      | [] => [replacementChar]
      | b2 :: rest2 =>
        if 0x80 ≤ b2 ∧ b2 ≤ 0xBF then
          Char.ofNat ((b - 0xC0) * 0x40 + (b2 - 0x80)) :: utf8DecodeGo fuel rest2
        else replacementChar :: utf8DecodeGo fuel (b2 :: rest2)
    else if 0xE0 ≤ b ∧ b ≤ 0xEF then
      match rest with
      | b2 :: b3 :: rest3 =>
        if (0x80 ≤ b2 ∧ b2 ≤ 0xBF) ∧ (0x80 ≤ b3 ∧ b3 ≤ 0xBF) then
          Char.ofNat ((b - 0xE0) * 0x1000 + (b2 - 0x80) * 0x40 + (b3 - 0x80)) ::
            utf8DecodeGo fuel rest3
        else replacementChar :: utf8DecodeGo fuel (b2 :: b3 :: rest3)
      | _ => [replacementChar]
    else if 0xF0 ≤ b ∧ b ≤ 0xF4 then
      match rest with
      | b2 :: b3 :: b4 :: rest4 =>
        if (0x80 ≤ b2 ∧ b2 ≤ 0xBF) ∧ (0x80 ≤ b3 ∧ b3 ≤ 0xBF) ∧
            (0x80 ≤ b4 ∧ b4 ≤ 0xBF) then
          Char.ofNat ((b - 0xF0) * 0x40000 + (b2 - 0x80) * 0x1000 +
            (b3 - 0x80) * 0x40 + (b4 - 0x80)) :: utf8DecodeGo fuel rest4
        else replacementChar :: utf8DecodeGo fuel (b2 :: b3 :: b4 :: rest4)
      | _ => [replacementChar]
    else replacementChar :: utf8DecodeGo fuel rest

/-- Model of `new TextDecoder('utf-8').decode`. -/
def utf8Decode (data : List Nat) : List Char :=
  utf8DecodeGo data.length data

/-- Model of `new TextDecoder('euc-kr').decode`: ASCII bytes decode to
their ASCII characters, a byte at or above 0x80 consumes the following
byte as the second half of a double-byte code, mapped by the (external,
WHATWG index) `table`. -/
def eucKrDecode (table : Nat → Nat → Char) : List Nat → List Char
  | [] => []
  | b :: rest =>
    if b < 0x80 then Char.ofNat b :: eucKrDecode table rest
    else
      match rest with
      | [] => [replacementChar]
      | b2 :: rest2 => table b b2 :: eucKrDecode table rest2

/-- String content of the optional-quote part `["']?` of the marker
regular expression: drop one leading double or single quote if present. -/
def dropOptionalQuote : List Char → List Char
  | [] => []
  | c :: cs => if c = Char.ofNat 34 ∨ c = Char.ofNat 39 then cs else c :: cs

/-- Alias alternatives of the marker regular expression
`(euc-kr|cp949|ks_c_5601-1987)`, in lower case. -/
def markerAliases : List (List Char) :=
  ["euc-kr".toList, "cp949".toList, "ks_c_5601-1987".toList]

/-- One anchored match of `charset=["']?(euc-kr|cp949|ks_c_5601-1987)`
at the start of an (already lower-cased) character list. -/
def hasMarkerAt (t : List Char) : Bool :=
  "charset=".toList.isPrefixOf t &&
    markerAliases.any (fun al => al.isPrefixOf (dropOptionalQuote (t.drop 8)))

/-- Model of `asciiPreview.match(/charset=["']?(euc-kr|cp949|ks_c_5601-1987)/i)`:
the `i` flag is case-insensitivity, modeled by lower-casing the text
(the pattern is already lower case); the match may start anywhere, so
every suffix is tried. -/
def containsCharsetMarker (s : List Char) : Bool :=
  ((s.map Char.toLower).tails).any hasMarkerAt

/-- Model of `_decodeContent(data)` (dist/onchain_loader.js 422-430):
ASCII-decode the first 2000 bytes, search the preview case-insensitively
for a declared-charset marker among the EUC-KR aliases; if found decode
the whole buffer with the regional decoder, otherwise decode the whole
buffer as UTF-8. -/
def decodeContent (table : Nat → Nat → Char) (data : List Nat) : List Char :=
  if containsCharsetMarker (asciiDecode (data.take 2000)) then
    eucKrDecode table data
  else utf8Decode data

lemma ascii_decoders_agree (table : Nat → Nat → Char) :
    ∀ data : List Nat, (∀ b ∈ data, b < 0x80) →
      eucKrDecode table data = utf8Decode data := by
  intro data
  induction data with
  | nil => intro h; rfl
  | cons b rest ih =>
    intro h
    have hb : b < 0x80 := h b (List.mem_cons_self b rest)
    have hrest := ih (fun x hx => h x (List.mem_cons_of_mem b hx))
    have h1 : eucKrDecode table (b :: rest) =
        Char.ofNat b :: eucKrDecode table rest := by
      rw [eucKrDecode.eq_def]
      simp only [if_pos hb]
    have h2 : utf8Decode (b :: rest) = Char.ofNat b :: utf8Decode rest := by
      simp only [utf8Decode, List.length_cons]
      rw [utf8DecodeGo.eq_def]
      simp only [if_pos hb]
    rw [h1, h2, hrest]

/-- ASCII bytes of `<meta charset="euc-kr">`. -/
def demoMarkerBuf : List Nat := "<meta charset=\"euc-kr\">".toList.map Char.toNat

/-- ASCII bytes of `<META CHARSET=EUC-KR>` (upper case). -/
def demoUpperMarkerBuf : List Nat := "<META CHARSET=EUC-KR>".toList.map Char.toNat

/-- ASCII bytes of a buffer with no charset marker. -/
def demoPlainBuf : List Nat := "<html>hello</html>".toList.map Char.toNat

/-- Claim C8: the decode step searches the ASCII decoding of the first
2000 bytes, case-insensitively, for a charset marker among the aliases
euc-kr, cp949, ks_c_5601-1987; if found the entire buffer is decoded
with the regional (EUC-KR) decoder, otherwise the entire buffer is
decoded as UTF-8; for an all-ASCII buffer both decoders yield identical
text.  Concretely the marker is found in `charset="euc-kr"` and in
upper-case `CHARSET=EUC-KR`, and not found in a plain buffer. -/
theorem decode_detects_charset (table : Nat → Nat → Char) (data : List Nat) :
    (containsCharsetMarker (asciiDecode (data.take 2000)) = true →
      decodeContent table data = eucKrDecode table data) ∧
    (containsCharsetMarker (asciiDecode (data.take 2000)) = false →
      decodeContent table data = utf8Decode data) ∧
    ((∀ b ∈ data, b < 0x80) → eucKrDecode table data = utf8Decode data) ∧
    (containsCharsetMarker (asciiDecode demoMarkerBuf) = true ∧
      containsCharsetMarker (asciiDecode demoUpperMarkerBuf) = true ∧
      containsCharsetMarker (asciiDecode demoPlainBuf) = false) := by
  refine ⟨?_, ?_, ascii_decoders_agree table data, by decide, by decide, by decide⟩
  · intro h
    rw [decodeContent, if_pos h]
  · intro h
    rw [decodeContent, if_neg (by rw [h]; exact Bool.false_ne_true)]

/-- Witness for C8: on the concrete all-ASCII plain buffer the EUC-KR
path and the UTF-8 path produce the same text (taking the identically
false table for the double-byte area, which ASCII input never reaches),
and the marker decision selects the UTF-8 path. -/
theorem decode_detects_charset_witness :
    eucKrDecode (fun _ _ => replacementChar) demoPlainBuf =
      utf8Decode demoPlainBuf ∧
    decodeContent (fun _ _ => replacementChar) demoPlainBuf =
      utf8Decode demoPlainBuf := by
  constructor
  · exact (decode_detects_charset (fun _ _ => replacementChar)
      demoPlainBuf).2.2.1 (by decide)
  · exact (decode_detects_charset (fun _ _ => replacementChar)
      demoPlainBuf).2.1 (by decide)

end OnchainLoader
